import Mathlib

/-!
# Pinboard Band: shape-to-sequence mapping engine, shallow embedding

This file embeds the core of the pinboard-band prototype in Lean 4:

* `src/core/musicMapping.ts` — graph utilities (`buildAdjacency`,
  `longestTrail`, `pingPongToLength`, `computeDegreeMap`);
* `src/core/sequenceGenerators.ts` — the Rhythm / Chord / Phrase
  generators together with `parseNodeId` and `getNoteFromNode`;
* `src/components/HexagonalTriangleGrid.tsx` — the static grid
  (`createGrid`), direction catalogue, gesture decomposition
  (`getEdgeSegments`) and the edge-editing handlers.

Modelling conventions:

* JavaScript `Map` and `Set` are modelled by association lists
  (`List (key × value)`) and lists with insert-if-absent-at-end,
  which reproduces the insertion-order iteration of `Map`/`Set`.
* JavaScript numbers are modelled by exact rationals `ℚ`
  (coordinates, lengths, velocities) and by `ℕ`/`ℤ` for counts and
  pitches; square roots (`Math.hypot`) are modelled by `ratSqrt`,
  which is exact precisely on rationals whose square root is
  rational — theorems about length comparisons carry that
  hypothesis explicitly.
* Out-of-range JavaScript array indexing yields `undefined`; it is
  modelled by `Option`: `jsGet` returns `none` out of range, and the
  node orders produced by `pingPongToLength` are `List (Option String)`.
-/

namespace Pinboard

/-- `GridNode` from `src/types/grid.ts`: id, planar coordinates, grid
coordinates. -/
structure GridNode where
  id : String
  x : ℚ
  y : ℚ
  row : ℤ
  col : ℤ
deriving DecidableEq, Repr

/-- `GridEdge` from `src/types/grid.ts`: canonical key plus the two
endpoint nodes (`from` and `to` are Lean keywords, hence `from'` and `to'`). -/
structure GridEdge where
  key : String
  from' : GridNode
  to' : GridNode
deriving DecidableEq, Repr

/-! ## musicMapping.ts -/

/-- JavaScript `Set.add`: append if not already present (insertion order
is preserved, adding an existing element keeps its position). -/
def listInsert (xs : List String) (x : String) : List String :=
  if x ∈ xs then xs else xs ++ [x]

/-- Adjacency map `Map<string, Set<string>>`, as an association list in
insertion order. -/
abbrev Adj := List (String × List String)

/-- `if (!adj.has(k)) adj.set(k, new Set())`. -/
def adjEnsure (adj : Adj) (k : String) : Adj :=
  if adj.any (·.1 = k) then adj else adj ++ [(k, [])]

/-- `adj.get(k)!.add(v)`. -/
def adjAdd (adj : Adj) (k v : String) : Adj :=
  adj.map (fun p => if p.1 = k then (p.1, listInsert p.2 v) else p)

/-- `buildAdjacency` from musicMapping.ts. -/
def buildAdjacency (edges : List GridEdge) : Adj :=
  edges.foldl
    (fun adj e =>
      adjAdd (adjAdd (adjEnsure (adjEnsure adj e.from'.id) e.to'.id)
        e.from'.id e.to'.id) e.to'.id e.from'.id)
    []

/-- `adj.get(node) ?? []` (iterated in insertion order). -/
def neighbors (adj : Adj) (k : String) : List String :=
  ((adj.find? (·.1 = k)).map (·.2)).getD []

/-- The keys of the adjacency map, in insertion order. -/
def adjKeys (adj : Adj) : List String := adj.map (·.1)

/-- The recursive `dfs` closure inside `longestTrail`.  `fuel` bounds the
recursion depth (the JavaScript recursion terminates because `visited`
grows strictly; `adj.length + 1` fuel is always enough, see
`dfsAux_explores`). The accumulator `longest` threads through the
neighbour loop exactly as the mutable `longest` variable does. -/
def dfsAux (adj : Adj) : Nat → String → List String → List String → List String → List String
  | 0, _, _, _, longest => longest
  | fuel + 1, node, visited, path, longest =>
    let visited' := listInsert visited node
    let path' := path ++ [node]
    let longest' := if longest.length < path'.length then path' else longest
    (neighbors adj node).foldl
      (fun acc next => if next ∈ visited' then acc else dfsAux adj fuel next visited' path' acc)
      longest'

/-- `longestTrail` from musicMapping.ts: run the DFS from every key. -/
def longestTrail (adj : Adj) : List String :=
  (adjKeys adj).foldl (fun acc start => dfsAux adj (adj.length + 1) start [] [] acc) []

/-- JavaScript array indexing `path[i]`: `undefined` (here `none`) when
the index is out of range, including negative indices. -/
def jsGet (path : List String) (i : ℤ) : Option String :=
  if i < 0 then none else path.get? i.toNat

/-- The `while` loop of `pingPongToLength`: emits exactly `fuel` entries
(the loop runs until `result.length === targetLength`); `i` and
`forward` are updated after each push exactly as in the source. -/
def pingPongAux (path : List String) : Nat → ℤ → Bool → List (Option String)
  | 0, _, _ => []
  | n + 1, i, forward =>
    let emitted := jsGet path i
    let i' := if forward then i + 1 else i - 1
    let forward' :=
      if i' = (path.length : ℤ) - 1 then false
      else if i' = 0 then true
      else forward
    emitted :: pingPongAux path n i' forward'

/-- `pingPongToLength` from musicMapping.ts. -/
def pingPongToLength (path : List String) (targetLength : Nat) : List (Option String) :=
  if path = [] then [] else pingPongAux path targetLength 0 true

/-- Degree map `Map<string, number>` as an association list. -/
abbrev DegMap := List (String × Nat)

/-- `degree.set(k, (degree.get(k) ?? 0) + 1)`. -/
def degIncr (m : DegMap) (k : String) : DegMap :=
  if m.any (·.1 = k) then m.map (fun p => if p.1 = k then (p.1, p.2 + 1) else p)
  else m ++ [(k, 1)]

/-- `computeDegreeMap` from musicMapping.ts. -/
def computeDegreeMap (edges : List GridEdge) : DegMap :=
  edges.foldl (fun m e => degIncr (degIncr m e.from'.id) e.to'.id) []

/-- `degreeMap.get(id) ?? 0` for a defined id. -/
def degreeLookup (m : DegMap) (id : String) : Nat :=
  ((m.find? (·.1 = id)).map (·.2)).getD 0

/-- `degreeMap.get(id) ?? 0` where `id` may be `undefined` (a `Map`
lookup at `undefined` misses, so the degree defaults to `0`). -/
def degreeGet (m : DegMap) (o : Option String) : Nat :=
  match o with
  | none => 0
  | some id => degreeLookup m id

/-! ## sequenceGenerators.ts: note mapping -/

/-- Little-endian decimal digits of `n`, with explicit fuel (the
recursion divides by ten, so `fuel = n` always suffices). -/
def natDigitsAux : ℕ → ℕ → List Char
  | 0, _ => []
  | fuel + 1, n => if n = 0 then [] else Nat.digitChar (n % 10) :: natDigitsAux fuel (n / 10)

/-- Decimal rendering of a natural number, as JavaScript template
literals do (`` `r${rowIndex}c${colIndex}` ``). -/
def natStr (n : ℕ) : String :=
  if n = 0 then "0" else String.mk (natDigitsAux n n).reverse

/-- `parseInt` on a non-empty digit string (most significant first). -/
def digitsVal (ds : List Char) : ℕ :=
  ds.foldl (fun a c => a * 10 + (c.toNat - 48)) 0

/-- One attempt of the regular expression `/r(\d+)c(\d+)/` anchored at
the head of the character list: `r`, one or more digits (greedy), `c`,
one or more digits (greedy).  Backtracking inside `\d+` can never help
because the character after a maximal digit run is not a digit, so the
greedy reading is exact. -/
def tryMatchAt : List Char → Option (ℕ × ℕ)
  | [] => none
  | c :: rest =>
    if c = 'r' then
      let p1 := rest.span Char.isDigit
      if p1.1 = [] then none
      else
        match p1.2 with
        | [] => none
        | c2 :: cs2 =>
          if c2 = 'c' then
            let p2 := cs2.span Char.isDigit
            if p2.1 = [] then none else some (digitsVal p1.1, digitsVal p2.1)
          else none
    else none

/-- Leftmost-match search of `/r(\d+)c(\d+)/`, as `String.match` does. -/
def findMatch : List Char → Option (ℕ × ℕ)
  | [] => none
  | c :: cs =>
    match tryMatchAt (c :: cs) with
    | some r => some r
    | none => findMatch cs

/-- `parseNodeId` from sequenceGenerators.ts: extract `{row, col}` from
the first `r<digits>c<digits>` occurrence, defaulting to `(0, 0)`. -/
def parseNodeId (id : String) : ℕ × ℕ :=
  (findMatch id.data).getD (0, 0)

/-- `getNoteFromNode` from sequenceGenerators.ts, parameterised by the
`layout` table of `pin_note_map.json` (the JSON asset is not part of the
sources; the function is total in the table).  Returns `none` ("no
pitch") out of bounds. -/
def getNoteFromNode (layout : List (List ℤ)) (row col : ℤ) : Option ℤ :=
  if row < 0 then none
  else
    match layout.get? row.toNat with
    | none => none
    | some rowData =>
      if col < 0 then none
      else rowData.get? col.toNat

/-! ## sequenceGenerators.ts: Rhythm -/

/-- The four drum hits. -/
inductive RhythmEvent | kick | snare | clap | hihat
deriving DecidableEq, Repr

/-- The body of the `nodeOrder.map` callback in
`generateRhythmSequence`, split on the degree `d` exactly as the source
`if` chain is (including the unreachable trailing `return null`). -/
def rhythmHit (d : ℕ) : Option RhythmEvent :=
  if d ≤ 2 then none
  else if d = 3 then some .kick
  else if d = 4 then some .snare
  else if d = 5 then some .clap
  else if 6 ≤ d then some .hihat
  else none

/-- `{sequence, nodeOrder}` for Rhythm and Phrase. -/
structure SeqResult (ε : Type) where
  sequence : List ε
  nodeOrder : List (Option String)
deriving DecidableEq, Repr

/-- `generateRhythmSequence` from sequenceGenerators.ts. -/
def generateRhythmSequence (edges : List GridEdge) : SeqResult (Option RhythmEvent) :=
  let adj := buildAdjacency edges
  let path := longestTrail adj
  let nodeOrder := pingPongToLength path 64
  let degreeMap := computeDegreeMap edges
  let sequence := nodeOrder.map (fun id => rhythmHit (degreeGet degreeMap id))
  ⟨sequence, nodeOrder⟩

/-! ## sequenceGenerators.ts: Chord -/

/-- Floor square root on `ℕ`, by base-4 digits with constant fuel (64
levels covers inputs below `4^64`, far beyond double precision; the
library `Nat.sqrt` is well-founded and does not reduce in the
kernel). -/
def isqrtAux : ℕ → ℕ → ℕ
  | 0, _ => 0
  | fuel + 1, n =>
    let r := isqrtAux fuel (n / 4)
    if (2 * r + 1) ^ 2 ≤ n then 2 * r + 1 else 2 * r

/-- `⌊√n⌋`. -/
def isqrt (n : ℕ) : ℕ := isqrtAux 64 n

/-- Model of the real square root applied to a rational: exact whenever
the radicand is the square of a rational (the reduced numerator times
denominator is then a perfect square), floor-truncated otherwise.
All chord theorems restrict to edge sets whose lengths are rational, on
which this model is the real `Math.hypot`. -/
def ratSqrt (q : ℚ) : ℚ :=
  if q ≤ 0 then 0 else ((isqrt (q.num.toNat * q.den) : ℚ)) / (q.den : ℚ)

/-- `Math.hypot(e.to.x - e.from.x, e.to.y - e.from.y)`. -/
def edgeLen (e : GridEdge) : ℚ :=
  ratSqrt ((e.to'.x - e.from'.x) ^ 2 + (e.to'.y - e.from'.y) ^ 2)

/-- The edge has a rational Euclidean length, so `edgeLen` is exact. -/
def RatLen (e : GridEdge) : Prop :=
  ∃ r : ℚ, 0 ≤ r ∧ (e.to'.x - e.from'.x) ^ 2 + (e.to'.y - e.from'.y) ^ 2 = r ^ 2

/-- Unit direction `(dx/len, dy/len)` of an edge.  A zero-length edge
divides by zero: JavaScript produces `NaN`, whose comparisons are all
false; rational division by zero produces `0`, whose dot products fail
the `> 0.999` test just the same, so the degenerate branch agrees. -/
def unitDir (e : GridEdge) : ℚ × ℚ :=
  let dx := e.to'.x - e.from'.x
  let dy := e.to'.y - e.from'.y
  let len := ratSqrt (dx ^ 2 + dy ^ 2)
  (dx / len, dy / len)

/-- `Math.abs(dot) > 0.999` for the unit directions of `e` against the
reference (first) edge of a cluster. -/
def sameLineTest (e first : GridEdge) : Bool :=
  let n := unitDir e
  let n2 := unitDir first
  decide ((999 : ℚ) / 1000 < |n.1 * n2.1 + n.2 * n2.2|)

/-- One step of the `edges.forEach` clustering loop: join the first
cluster whose reference edge passes `sameLineTest`, else open a new
cluster (`lines.find` scans in order; a cluster is never empty). -/
def addToLines (lines : List (List GridEdge)) (e : GridEdge) : List (List GridEdge) :=
  match lines.findIdx? (fun group =>
      match group.head? with
      | none => false
      | some first => sameLineTest e first) with
  | some i => List.modify (· ++ [e]) i lines
  | none => lines ++ [[e]]

/-- The collinear clusters (`lines`) of an edge list, in creation
order. -/
def clusterEdges (edges : List GridEdge) : List (List GridEdge) :=
  edges.foldl addToLines []

/-- `group.reduce((acc, e) => acc + Math.hypot(...), 0)`. -/
def totalLength (group : List GridEdge) : ℚ :=
  group.foldl (fun acc e => acc + edgeLen e) 0

/-- `Set<number>.add`: append if absent. -/
def pinsInsert (xs : List ℤ) (x : ℤ) : List ℤ :=
  if x ∈ xs then xs else xs ++ [x]

/-- The distinct mapped pitches of the endpoint nodes of a cluster, in
first-seen order (`pins` in the source). -/
def chordNotes (layout : List (List ℤ)) (group : List GridEdge) : List ℤ :=
  group.foldl
    (fun pins e =>
      [e.from', e.to'].foldl
        (fun pins n =>
          match getNoteFromNode layout n.row n.col with
          | some note => pinsInsert pins note
          | none => pins)
        pins)
    []

/-- A chord event `{type: "chord", notes}` (constant tag dropped). -/
structure ChordEvent where
  notes : List ℤ
deriving DecidableEq, Repr

/-- `String(number)`: decimal rendering of a pitch. -/
def intStr (n : ℤ) : String :=
  if n < 0 then "-" ++ natStr n.natAbs else natStr n.natAbs

/-- `{sequence, nodeOrder}` for Chord: `nodeOrder` is the flattened
pitch list rendered as strings, not node ids. -/
structure ChordResult where
  sequence : List ChordEvent
  nodeOrder : List String
deriving DecidableEq, Repr

/-- The descending-by-total-length comparator: the JavaScript stable
sort with `(a, b) => b.totalLength - a.totalLength` is modelled by the
stable `mergeSort` with `b.2 ≤ a.2`. -/
def lineLe (a b : List GridEdge × ℚ) : Bool := decide (b.2 ≤ a.2)

/-- `lineInfo`: each cluster paired with its total length. -/
def lineInfoOf (edges : List GridEdge) : List (List GridEdge × ℚ) :=
  (clusterEdges edges).map (fun group => (group, totalLength group))

/-- The clusters sorted by total length descending
(`.sort((a, b) => b.totalLength - a.totalLength)`, a stable sort). -/
def rankedClusters (edges : List GridEdge) : List (List GridEdge × ℚ) :=
  (lineInfoOf edges).mergeSort lineLe

/-- `chords`: the pitch sets of the top-4 clusters, in rank order. -/
def chordSlots (layout : List (List ℤ)) (edges : List GridEdge) : List (List ℤ) :=
  ((rankedClusters edges).take 4).map (fun li => chordNotes layout li.1)

/-- `generateChordSequence` from sequenceGenerators.ts (its `lines`,
`lineInfo`, `top4` and `chords` locals are the named definitions
above). -/
def generateChordSequence (layout : List (List ℤ)) (edges : List GridEdge) : ChordResult :=
  if edges = [] then ⟨[], []⟩
  else
    let chords := chordSlots layout edges
    let fullProgression := (List.range 4).map (fun i => (chords.get? (i % chords.length)).getD [])
    let nodeOrder := fullProgression.foldr (· ++ ·) [] |>.map intStr
    let sequence := fullProgression.map (fun notes => ChordEvent.mk notes)
    ⟨sequence, nodeOrder⟩

/-! ## sequenceGenerators.ts: Phrase -/

/-- A phrase note `{type: "note", note, velocity}` (the constant tag is
dropped). -/
structure PhraseEvent where
  note : ℤ
  velocity : ℚ
deriving DecidableEq, Repr

/-- The body of the `nodeOrder.map` callback in
`generatePhraseSequence`.  For an `undefined` id (`none`) the degree
lookup misses, `d = 0 ≤ 2`, and the slot is a rest — `parseNodeId` is
never reached, so no exception can occur. -/
def phraseStep (layout : List (List ℤ)) (degreeMap : DegMap) :
    Option String → Option PhraseEvent
  | none => none
  | some id =>
    let d := degreeLookup degreeMap id
    if d ≤ 2 then none
    else
      let rc := parseNodeId id
      match getNoteFromNode layout (rc.1 : ℤ) (rc.2 : ℤ) with
      | some note => some ⟨note, min 1 ((d : ℚ) / 6)⟩
      | none => none

/-- `generatePhraseSequence` from sequenceGenerators.ts. -/
def generatePhraseSequence (layout : List (List ℤ)) (edges : List GridEdge) :
    SeqResult (Option PhraseEvent) :=
  let adj := buildAdjacency edges
  let path := longestTrail adj
  let nodeOrder := pingPongToLength path 64
  let degreeMap := computeDegreeMap edges
  let sequence := nodeOrder.map (phraseStep layout degreeMap)
  ⟨sequence, nodeOrder⟩

/-! ## HexagonalTriangleGrid.tsx

The grid component's geometry is embedded with exact real arithmetic.
A grid point's real coordinates are `(x, MARGIN + yb·√3)` where `x` and
`yb` are rationals: `VERTICAL_SPACING = 48·√3/2 = 24·√3`, so every node
has `yb = 24·row`, and the shared additive `MARGIN` of the `y` axis is
dropped (only coordinate differences and exact-key equality ever use
`y`).  `coordinateKey` compares coordinates rounded to 6 decimals;
distinct lattice points differ by at least 24 in `x` or `24√3` in `y`,
so exact equality of `(x, yb)` models key equality on every point the
component constructs.  Square roots of rationals (`Math.hypot`,
normalised directions, `Math.round` of quotients) are decided exactly
through integer square roots. -/

namespace Grid

/-- `⌊q⌋` (floor division of the reduced fraction). -/
def ratFloor (q : ℚ) : ℤ := q.num.fdiv q.den

/-- `⌊√q⌋` for `0 ≤ q`. -/
def ratFloorSqrt (q : ℚ) : ℕ := isqrt (ratFloor q).toNat

/-- Decides `d·√s ≤ c` for `0 ≤ s`, by sign analysis and squaring. -/
def geMulSqrt (c : ℚ) (d : ℤ) (s : ℚ) : Bool :=
  if 0 ≤ c then
    if d ≤ 0 then true else decide ((d : ℚ) ^ 2 * s ≤ c ^ 2)
  else if 0 ≤ d then false
  else decide (c ^ 2 ≤ (d : ℚ) ^ 2 * s)

/-- `Math.round(a / √s)` for `s > 0`, i.e. `⌊a/√s + 1/2⌋`, computed
exactly: first `⌊a/√s⌋` (via `⌊√(a²/s)⌋`, negating with an exactness
correction for `a < 0`), then the half-step comparison
`2a ≥ (2m+1)·√s`. -/
def roundDivSqrt (a s : ℚ) : ℤ :=
  let k := ratFloorSqrt (a ^ 2 / s)
  let m : ℤ :=
    if 0 ≤ a then (k : ℤ)
    else if (k : ℚ) ^ 2 * s = a ^ 2 then -(k : ℤ) else -(k : ℤ) - 1
  if geMulSqrt (2 * a) (2 * m + 1) s then m + 1 else m

/-- `Math.round(√r)` for `0 ≤ r`. -/
def roundSqrt (r : ℚ) : ℕ :=
  let k := ratFloorSqrt r
  if (2 * (k : ℚ) + 1) ^ 2 ≤ 4 * r then k + 1 else k

/-- Decides `c ≤ √s` for `0 ≤ s`. -/
def leSqrt (c s : ℚ) : Bool := decide (c ≤ 0) || decide (c ^ 2 ≤ s)

/-- Decides `√s ≤ c` for `0 ≤ s`. -/
def sqrtLe (s c : ℚ) : Bool := decide (0 ≤ c) && decide (s ≤ c ^ 2)

/-- A grid pin: id, exact coordinates (`x`, and `yb` with real
`y = MARGIN + yb·√3`), grid coordinates. -/
structure GNode where
  id : String
  x : ℚ
  yb : ℚ
  row : ℕ
  col : ℕ
deriving DecidableEq, Repr

/-- A unit edge of the component, as `GridEdge` there. -/
structure GEdge where
  key : String
  from' : GNode
  to' : GNode
deriving DecidableEq, Repr

/-- `ROW_COUNTS` from HexagonalTriangleGrid.tsx. -/
def ROW_COUNTS : List ℕ := [4, 5, 6, 7, 6, 5, 4]

/-- `` `r${rowIndex}c${colIndex}` ``. -/
def mkNodeId (r c : ℕ) : String := "r" ++ natStr r ++ "c" ++ natStr c

/-- One row of `createGrid`: x = `MARGIN + offset + col·HORIZONTAL_SPACING`
with `offset = (MAX_COUNT - count)·HORIZONTAL_SPACING / 2`, and
`yb = 24·row` (real y = MARGIN + row·24√3). -/
def rowNodesOf (rowIndex count : ℕ) : List GNode :=
  (List.range count).map (fun colIndex =>
    ⟨mkNodeId rowIndex colIndex,
      48 + ((7 - (count : ℚ)) * 48) / 2 + (colIndex : ℚ) * 48,
      24 * (rowIndex : ℚ), rowIndex, colIndex⟩)

/-- `nodesByRow` of `createGrid`. -/
def nodesByRow : List (List GNode) :=
  ROW_COUNTS.enum.map (fun p => rowNodesOf p.1 p.2)

/-- Lexicographic order on character lists by code point: the JavaScript
string `<` on the ASCII node ids (the library `String.decidableLT` is
byte-iterator based and does not reduce in the kernel). -/
def charListLt : List Char → List Char → Bool
  | [], [] => false
  | [], _ :: _ => true
  | _ :: _, [] => false
  | a :: as, b :: bs =>
    if a.toNat < b.toNat then true
    else if b.toNat < a.toNat then false
    else charListLt as bs

/-- JavaScript `a < b` on strings. -/
def strLt (a b : String) : Bool := charListLt a.data b.data

/-- The canonical edge key: lexicographically smaller id first. -/
def createEdgeKey (a b : GNode) : String :=
  if strLt a.id b.id then a.id ++ "-" ++ b.id else b.id ++ "-" ++ a.id

/-- `addEdge` of `createGrid`: deduplicate by canonical key. -/
def addEdge (es : List GEdge) (a b : GNode) : List GEdge :=
  let key := createEdgeKey a b
  if es.any (·.key = key) then es else es ++ [⟨key, a, b⟩]

/-- The horizontal edges of one row, in order. -/
def addRowEdges (es : List GEdge) (row : List GNode) : List GEdge :=
  (row.zip row.tail).foldl (fun es p => addEdge es p.1 p.2) es

/-- The equal-count branch of the between-rows loop (dead for this
`ROW_COUNTS`, kept from the source): `upper[col]-lower[col]` and, below
the last column, `upper[col+1]-lower[col]`. -/
def sameCountEdges : List GEdge → List GNode → List GNode → List GEdge
  | es, u1 :: u2 :: us, l1 :: ls => sameCountEdges (addEdge (addEdge es u1 l1) u2 l1) (u2 :: us) ls
  | es, [u1], l1 :: _ => addEdge es u1 l1
  | es, _, _ => es

/-- The between-rows connection loop of `createGrid`: one of three
adjacency rules chosen by the relative row lengths. -/
def addBetweenRows (es : List GEdge) (upper lower : List GNode) : List GEdge :=
  if lower.length = upper.length + 1 then
    (upper.zip (lower.zip lower.tail)).foldl
      (fun es p => addEdge (addEdge es p.1 p.2.1) p.1 p.2.2) es
  else if lower.length + 1 = upper.length then
    ((upper.zip upper.tail).zip lower).foldl
      (fun es p => addEdge (addEdge es p.1.1 p.2) p.1.2 p.2) es
  else sameCountEdges es upper lower

/-- The base unit edges of `createGrid`: horizontal edges row by row,
then the between-rows connections. -/
def createGridEdges : List GEdge :=
  (nodesByRow.zip nodesByRow.tail).foldl (fun es p => addBetweenRows es p.1 p.2)
    (nodesByRow.foldl addRowEdges [])

/-- `allNodes = nodesByRow.flat()`. -/
def allNodes : List GNode := nodesByRow.foldr (· ++ ·) []

/-- `nodeMap.get(id)`. -/
def nodeMapFind (id : String) : Option GNode := allNodes.find? (·.id = id)

/-- `baseEdgeKeys.has(k)`. -/
def baseKeyMem (k : String) : Bool := createGridEdges.any (·.key = k)

/-- `nodeCoordinateMap.get(coordinateKey(x, y))`: exact coordinate
equality models the 6-decimal string key, see the section comment. -/
def nodeAtCoord (x yb : ℚ) : Option GNode :=
  allNodes.find? (fun n => decide (n.x = x) && decide (n.yb = yb))

/-- A direction catalogue entry `{dx, dy, length}`; the length is kept
as its square `lenSq = dx² + 3·dyb²` (the real length is `√lenSq`). -/
structure DirInfo where
  dx : ℚ
  dyb : ℚ
  lenSq : ℚ
deriving DecidableEq, Repr

/-- `createDirectionKey(dx, dy)`: the unit direction rounded to 6
decimals, represented by the integer pair
`(round(10⁶·dx/len), round(10⁶·dy/len))`; `none` for a zero vector. -/
def directionKey (dx dyb : ℚ) : Option (ℤ × ℤ) :=
  let lenSq := dx ^ 2 + 3 * dyb ^ 2
  if lenSq = 0 then none
  else some (roundDivSqrt (dx * 1000000) lenSq, roundDivSqrt (dyb * 1000000) (lenSq / 3))

/-- `if (key && !map.has(key)) map.set(key, v)`. -/
def dirInsert (m : List ((ℤ × ℤ) × DirInfo)) (k : Option (ℤ × ℤ)) (v : DirInfo) :
    List ((ℤ × ℤ) × DirInfo) :=
  match k with
  | none => m
  | some key => if m.any (·.1 = key) then m else m ++ [(key, v)]

/-- `directionInfoMap`: forward and backward directions of every base
edge, first insertion wins. -/
def directionInfoMap : List ((ℤ × ℤ) × DirInfo) :=
  createGridEdges.foldl
    (fun m e =>
      let dx := e.to'.x - e.from'.x
      let dyb := e.to'.yb - e.from'.yb
      dirInsert (dirInsert m (directionKey dx dyb) ⟨dx, dyb, dx ^ 2 + 3 * dyb ^ 2⟩)
        (directionKey (-dx) (-dyb)) ⟨-dx, -dyb, dx ^ 2 + 3 * dyb ^ 2⟩)
    []

/-- `directionInfoMap.get(key)`. -/
def dirLookup (k : ℤ × ℤ) : Option DirInfo :=
  (directionInfoMap.find? (·.1 = k)).map (·.2)

/-- `directionKeyFromNodes(from, to)`. -/
def gestureDir (a b : GNode) : Option (ℤ × ℤ) :=
  directionKey (b.x - a.x) (b.yb - a.yb)

/-- The squared real distance between two pins. -/
def dist2 (a b : GNode) : ℚ := (b.x - a.x) ^ 2 + 3 * (b.yb - a.yb) ^ 2

/-- `steps = Math.round(totalLength / direction.length)`
(`= round(√(dist²/lenSq))`). -/
def gestureSteps (a b : GNode) (dir : DirInfo) : ℕ :=
  roundSqrt (dist2 a b / dir.lenSq)

/-- The guard `!(steps <= 0 || Math.abs(steps - stepsFloat) > 1e-6)`. -/
def stepsValid (a b : GNode) (dir : DirInfo) : Bool :=
  let r := dist2 a b / dir.lenSq
  let steps := roundSqrt r
  decide (steps ≠ 0) && leSqrt ((steps : ℚ) - 1 / 1000000) r &&
    sqrtLe r ((steps : ℚ) + 1 / 1000000)

/-- The step-by-step walk of `getEdgeSegments`: look up each next
coordinate, require each unit segment to be a base edge, and return the
segments with the node finally reached. -/
def walkAux : ℕ → GNode → ℚ → ℚ → Option (List GEdge × GNode)
  | 0, current, _, _ => some ([], current)
  | k + 1, current, dx, dyb =>
    match nodeAtCoord (current.x + dx) (current.yb + dyb) with
    | none => none
    | some nextNode =>
      let segKey := createEdgeKey current nextNode
      if baseKeyMem segKey then
        match walkAux k nextNode dx dyb with
        | none => none
        | some (segs, last) => some (⟨segKey, current, nextNode⟩ :: segs, last)
      else none

/-- `getEdgeSegments` from HexagonalTriangleGrid.tsx. -/
def getEdgeSegments (a b : GNode) : Option (List GEdge) :=
  match gestureDir a b with
  | none => none
  | some dkey =>
    match dirLookup dkey with
    | none => none
    | some dir =>
      if stepsValid a b dir then
        match walkAux (gestureSteps a b dir) a dir.dx dir.dyb with
        | none => none
        | some (segs, last) => if last.id = b.id then some segs else none
      else none

/-- `canCreateEdge`. -/
def canCreateEdge (a b : GNode) : Bool := (getEdgeSegments a b).isSome

/-- The segment-appending loop of `handleNodeClick`: skip segments whose
key is already present (the growing accumulator is the growing
`existingKeys` set). -/
def addSegments (edges segments : List GEdge) : List GEdge :=
  segments.foldl
    (fun acc seg => if acc.any (·.key = seg.key) then acc else acc ++ [seg]) edges

/-- `handleNodeClick`: the edge list passed to `onEdgesChange`, or
`none` when the handler returns without calling it (no selection, same
node, unknown selection, or failed decomposition). -/
def handleNodeClick (selectedNodeId : Option String) (node : GNode) (edges : List GEdge) :
    Option (List GEdge) :=
  match selectedNodeId with
  | none => none
  | some sel =>
    if sel = node.id then none
    else
      match nodeMapFind sel with
      | none => none
      | some fromNode =>
        if canCreateEdge fromNode node then
          match getEdgeSegments fromNode node with
          | none => none
          | some segments => some (addSegments edges segments)
        else none

/-- The edge sets reachable through the component's edit operations:
the initial empty set, clearing, right-click removal
(`handleEdgeContextMenu`), and click-to-connect (`handleNodeClick`). -/
inductive ReachableEdges : List GEdge → Prop
  | init : ReachableEdges []
  | clear {es : List GEdge} : ReachableEdges es → ReachableEdges []
  | remove {es : List GEdge} (k : String) :
      ReachableEdges es → ReachableEdges (es.filter (fun e => e.key != k))
  | click {es es' : List GEdge} (sel : Option String) (node : GNode) :
      ReachableEdges es → handleNodeClick sel node es = some es' → ReachableEdges es'

/-- `segs` chains from `a` to `b`: each segment starts where the
previous one ended. -/
inductive ChainedFrom : GNode → List GEdge → GNode → Prop
  | nil (a : GNode) : ChainedFrom a [] a
  | cons {a b : GNode} {seg : GEdge} {segs : List GEdge} :
      seg.from' = a → ChainedFrom seg.to' segs b → ChainedFrom a (seg :: segs) b

/-- The gesture endpoints used by the C4 witness (nodes of the
constructed grid, three horizontal steps apart). -/
def node00 : GNode := ⟨"r0c0", 120, 0, 0, 0⟩

/-- See `node00`. -/
def node03 : GNode := ⟨"r0c3", 264, 0, 0, 3⟩

/-- The decomposition of the witness gesture. -/
def segs03 : List GEdge := (getEdgeSegments node00 node03).getD []


end Grid


/-! ## Demo inputs used by witnesses -/

/-- A node named like the grid names its pins (coordinates are
irrelevant to the traversal-based generators). -/
def demoNode (id : String) (r c : ℤ) : GridNode := ⟨id, (c : ℚ), (r : ℚ), r, c⟩

/-- A three-edge star centred on `r0c0`, which therefore has degree 3. -/
def demoEdges : List GridEdge :=
  [⟨"r0c0-r0c1", demoNode "r0c0" 0 0, demoNode "r0c1" 0 1⟩,
   ⟨"r0c0-r0c2", demoNode "r0c0" 0 0, demoNode "r0c2" 0 2⟩,
   ⟨"r0c0-r0c3", demoNode "r0c0" 0 0, demoNode "r0c3" 0 3⟩]

/-- The degree-to-hit table exactly as the specification words it:
degree ≤ 2 → rest; 3 → kick; 4 → snare; 5 → clap; ≥ 6 → hihat. -/
def rhythmOfDegree : ℕ → Option RhythmEvent
  | 0 | 1 | 2 => none
  | 3 => some .kick
  | 4 => some .snare
  | 5 => some .clap
  | _ => some .hihat

/-- The pitch table used by witnesses. -/
def demoLayout : List (List ℤ) := [[60, 62, 64, 65]]

/-- `b` is a successor of `a` in the adjacency map (the step relation
the DFS follows). -/
def adjRel (adj : Adj) (a b : String) : Prop := b ∈ neighbors adj a

instance (adj : Adj) : DecidableRel (adjRel adj) :=
  fun a b => inferInstanceAs (Decidable (b ∈ neighbors adj a))

/-- `x` is a node of the graph: a key of the adjacency map or a member
of some neighbour set. -/
def IsNodeOf (adj : Adj) (x : String) : Prop :=
  x ∈ adjKeys adj ∨ ∃ p ∈ adj, x ∈ p.2

instance (adj : Adj) (x : String) : Decidable (IsNodeOf adj x) :=
  inferInstanceAs (Decidable (x ∈ adjKeys adj ∨ ∃ p ∈ adj, x ∈ p.2))

/-- A simple path of the graph: distinct nodes, consecutive nodes
adjacent, every node a node of the graph. -/
def IsSimplePath (adj : Adj) (p : List String) : Prop :=
  p.Nodup ∧ p.Chain' (adjRel adj) ∧ ∀ x ∈ p, IsNodeOf adj x

/-- Executable test for `Chain' (adjRel adj)` (the library instance for
`Chain'` is built with tactics and does not reduce). -/
def chainB (adj : Adj) : List String → Bool
  | [] => true
  | [_] => true
  | a :: b :: rest => decide (adjRel adj a b) && chainB adj (b :: rest)

/-- The 4-cycle A-B-C-D-A of the specification's test property. -/
def fourCycleEdges : List GridEdge :=
  [⟨"A-B", demoNode "A" 0 0, demoNode "B" 0 1⟩,
   ⟨"B-C", demoNode "B" 0 1, demoNode "C" 1 1⟩,
   ⟨"C-D", demoNode "C" 1 1, demoNode "D" 1 0⟩,
   ⟨"D-A", demoNode "D" 1 0, demoNode "A" 0 0⟩]

/-- `id` contains an `r<digits>c<digits>` substring. -/
def ContainsPattern (id : String) : Prop :=
  ∃ pre ds1 ds2 post : List Char,
    id.data = pre ++ 'r' :: (ds1 ++ 'c' :: (ds2 ++ post)) ∧
    ds1 ≠ [] ∧ ds2 ≠ [] ∧
    (∀ c ∈ ds1, c.isDigit = true) ∧ (∀ c ∈ ds2, c.isDigit = true)

/-- The nodes and edges of the C5 witness: a horizontal line of total
length 100 and a perpendicular vertical line of total length 50, both
from the origin pin. -/
def chordNodeA : GridNode := ⟨"p", 0, 0, 0, 0⟩

/-- See `chordNodeA`. -/
def chordNodeB : GridNode := ⟨"q", 100, 0, 0, 1⟩

/-- See `chordNodeA`. -/
def chordNodeC : GridNode := ⟨"s", 0, 50, 1, 0⟩

/-- See `chordNodeA`. -/
def chordDemoEdges : List GridEdge :=
  [⟨"h", chordNodeA, chordNodeB⟩, ⟨"v", chordNodeA, chordNodeC⟩]

/-- The pitch table of the C5 witness. -/
def chordDemoLayout : List (List ℤ) := [[60, 62], [64, 65]]

/-! ## Basic lemmas: lengths and nonemptiness -/

theorem pingPongAux_length (path : List String) :
    ∀ (n : Nat) (i : ℤ) (f : Bool), (pingPongAux path n i f).length = n := by
  intro n
  induction n with
  | zero => intro i f; rfl
  | succ n ih => intro i f; simp [pingPongAux, ih]

theorem pingPongToLength_length (path : List String) (h : path ≠ []) (n : Nat) :
    (pingPongToLength path n).length = n := by
  simp [pingPongToLength, h, pingPongAux_length]

theorem adjEnsure_ne_nil (adj : Adj) (k : String) : adjEnsure adj k ≠ [] := by
  unfold adjEnsure
  split
  · next hany =>
    intro hnil
    subst hnil
    simp at hany
  · exact List.append_ne_nil_of_right_ne_nil _ (by simp)

theorem adjAdd_ne_nil (adj : Adj) (k v : String) (h : adj ≠ []) : adjAdd adj k v ≠ [] := by
  simpa [adjAdd] using h

theorem buildAdjacency_ne_nil (edges : List GridEdge) (h : edges ≠ []) :
    buildAdjacency edges ≠ [] := by
  obtain ⟨e, rest, rfl⟩ := List.exists_cons_of_ne_nil h
  show List.foldl _ _ (e :: rest) ≠ []
  rw [List.foldl_cons]
  have step : ∀ (adj : Adj) (e' : GridEdge),
      adjAdd (adjAdd (adjEnsure (adjEnsure adj e'.from'.id) e'.to'.id)
        e'.from'.id e'.to'.id) e'.to'.id e'.from'.id ≠ [] := by
    intro adj e'
    exact adjAdd_ne_nil _ _ _ (adjAdd_ne_nil _ _ _ (adjEnsure_ne_nil _ _))
  have main : ∀ (l : List GridEdge) (init : Adj), init ≠ [] → l.foldl
      (fun adj e' => adjAdd (adjAdd (adjEnsure (adjEnsure adj e'.from'.id) e'.to'.id)
        e'.from'.id e'.to'.id) e'.to'.id e'.from'.id) init ≠ [] := by
    intro l
    induction l with
    | nil => intro init h0; exact h0
    | cons x xs ih => intro init _; exact ih _ (step init x)
  exact main rest _ (step [] e)

/-- Threading any accumulator through a length-monotone fold can only
grow the length. -/
theorem foldl_length_mono {β : Type} (f : List String → β → List String)
    (hf : ∀ acc x, acc.length ≤ (f acc x).length) :
    ∀ (l : List β) (init : List String), init.length ≤ (l.foldl f init).length := by
  intro l
  induction l with
  | nil => intro init; exact le_rfl
  | cons x xs ih => intro init; exact le_trans (hf init x) (ih (f init x))

theorem dfsAux_mono (adj : Adj) :
    ∀ (fuel : Nat) (node : String) (visited path longest : List String),
      longest.length ≤ (dfsAux adj fuel node visited path longest).length := by
  intro fuel
  induction fuel with
  | zero => intro node visited path longest; exact le_rfl
  | succ fuel ih =>
    intro node visited path longest
    unfold dfsAux
    dsimp only
    refine le_trans ?_ (foldl_length_mono _ ?_ _ _)
    · split
      · next h => omega
      · exact le_rfl
    · intro acc next
      dsimp only
      split
      · exact le_rfl
      · exact ih _ _ _ _

theorem dfsAux_length_pos (adj : Adj) (fuel : Nat) (node : String)
    (visited longest : List String) :
    1 ≤ (dfsAux adj (fuel + 1) node visited [] longest).length := by
  unfold dfsAux
  dsimp only
  refine le_trans ?_ (foldl_length_mono _ ?_ _ _)
  · split
    · simp
    · next h =>
      simp only [List.nil_append, List.length_cons, List.length_nil] at h
      omega
  · intro acc next
    dsimp only
    split
    · exact le_rfl
    · exact dfsAux_mono _ _ _ _ _ _

theorem longestTrail_length_pos (adj : Adj) (h : adj ≠ []) :
    1 ≤ (longestTrail adj).length := by
  obtain ⟨p, rest, rfl⟩ := List.exists_cons_of_ne_nil h
  unfold longestTrail
  rw [show adjKeys (p :: rest) = p.1 :: adjKeys rest from rfl, List.foldl_cons]
  refine le_trans ?_ (foldl_length_mono _ ?_ _ _)
  · exact dfsAux_length_pos _ _ _ _ _
  · intro acc start
    exact dfsAux_mono _ _ _ _ _ _

theorem longestTrail_ne_nil (adj : Adj) (h : adj ≠ []) : longestTrail adj ≠ [] := by
  have := longestTrail_length_pos adj h
  intro hnil
  rw [hnil] at this
  simp at this

/-! ## Claim C1: ping-pong on a single-node path -/

/-- C1 (code bug): on the single-node path `["n1"]` with target length
2, `pingPongToLength` emits `path[0]` and then `path[1]`, which is
`undefined` (the direction flag is only reset when the index returns to
`path.length - 1` or `0`, and for a one-element path the index runs off
the end instead) — the claimed result would be `[some "n1", some
"n1"]`. -/
theorem C1_pingPong_singleton_bug :
    pingPongToLength ["n1"] 2 = [some "n1", none] ∧
    pingPongToLength ["n1"] 2 ≠ [some "n1", some "n1"] := by
  constructor
  · rfl
  · decide

/-! ## Claim C2: generator output lengths -/

/-- C2 (counterexample): on the empty edge set the longest trail is
empty, so Rhythm and Phrase return empty sequences, not length 64. -/
theorem C2_counterexample_empty_edges :
    ¬ ((generateRhythmSequence []).sequence.length = 64 ∧
       (generateRhythmSequence []).nodeOrder.length = 64 ∧
       (generatePhraseSequence [] []).sequence.length = 64 ∧
       (generatePhraseSequence [] []).nodeOrder.length = 64) := by
  decide

/-- C2 (amended): for every **non-empty** edge set, Rhythm and Phrase
return `sequence` and `nodeOrder` of length exactly 64. -/
theorem C2_generators_length_64 (layout : List (List ℤ)) (edges : List GridEdge)
    (h : edges ≠ []) :
    (generateRhythmSequence edges).sequence.length = 64 ∧
    (generateRhythmSequence edges).nodeOrder.length = 64 ∧
    (generatePhraseSequence layout edges).sequence.length = 64 ∧
    (generatePhraseSequence layout edges).nodeOrder.length = 64 := by
  have hpath : longestTrail (buildAdjacency edges) ≠ [] :=
    longestTrail_ne_nil _ (buildAdjacency_ne_nil edges h)
  have hlen := pingPongToLength_length _ hpath 64
  refine ⟨?_, hlen, ?_, hlen⟩
  · show (List.map _ (pingPongToLength (longestTrail (buildAdjacency edges)) 64)).length = 64
    rw [List.length_map, hlen]
  · show (List.map _ (pingPongToLength (longestTrail (buildAdjacency edges)) 64)).length = 64
    rw [List.length_map, hlen]

/-- Witness for C2 at the demo edge set. -/
theorem C2_generators_length_64_witness :
    demoEdges ≠ [] ∧ (generateRhythmSequence demoEdges).sequence.length = 64 :=
  ⟨by decide, (C2_generators_length_64 [] demoEdges (by decide)).1⟩

/-! ## Claim C7: the rhythm degree table -/

/-- The source `if` chain implements the specification table (its
trailing `return null` is unreachable). -/
theorem rhythmHit_eq_rhythmOfDegree : ∀ d, rhythmHit d = rhythmOfDegree d := by
  intro d
  match d with
  | 0 | 1 | 2 | 3 | 4 | 5 => rfl
  | n + 6 =>
    have h2 : ¬(n + 6 ≤ 2) := by omega
    have h3 : ¬(n + 6 = 3) := by omega
    have h4 : ¬(n + 6 = 4) := by omega
    have h5 : ¬(n + 6 = 5) := by omega
    have h6 : 6 ≤ n + 6 := by omega
    simp [rhythmHit, rhythmOfDegree, h2, h3, h4, h5, h6]

/-- C7: in `generateRhythmSequence`, every sequence slot is the image
of the degree of the corresponding `nodeOrder` entry (degree 0 when the
entry is absent from the degree map or `undefined`) under the table
rest/kick/snare/clap/hihat. -/
theorem C7_rhythm_degree_mapping (edges : List GridEdge) :
    (generateRhythmSequence edges).sequence.length =
      (generateRhythmSequence edges).nodeOrder.length ∧
    ∀ (i : ℕ) (o : Option String),
      (generateRhythmSequence edges).nodeOrder[i]? = some o →
      (generateRhythmSequence edges).sequence[i]? =
        some (rhythmOfDegree (degreeGet (computeDegreeMap edges) o)) := by
  have hs : (generateRhythmSequence edges).sequence =
      ((generateRhythmSequence edges).nodeOrder).map
        (fun id => rhythmHit (degreeGet (computeDegreeMap edges) id)) := rfl
  constructor
  · rw [hs, List.length_map]
  · intro i o ho
    rw [hs, List.getElem?_map, ho, Option.map_some', rhythmHit_eq_rhythmOfDegree]

/-- Witness for C7: position 1 of the demo star is the degree-3 centre
`r0c0`, so the emitted event is a kick. -/
theorem C7_rhythm_degree_mapping_witness :
    (generateRhythmSequence demoEdges).nodeOrder[1]? = some (some "r0c0") ∧
    (generateRhythmSequence demoEdges).sequence[1]? =
      some (rhythmOfDegree (degreeGet (computeDegreeMap demoEdges) (some "r0c0"))) :=
  ⟨by decide, (C7_rhythm_degree_mapping demoEdges).2 1 (some "r0c0") (by decide)⟩

/-! ## Claim C8: the phrase mapping -/

/-- C8: in `generatePhraseSequence`, a slot with node degree ≤ 2 is a
rest; a slot with degree ≥ 3 whose parsed `(row, col)` has a pitch in
the table is a note with that pitch and velocity `min 1 (d / 6)`; and a
degree ≥ 3 slot whose pitch lookup is out of bounds is a rest (the
generator is a total function, so no exception is possible). -/
theorem C8_phrase_degree_mapping (layout : List (List ℤ)) (edges : List GridEdge) :
    (generatePhraseSequence layout edges).sequence.length =
      (generatePhraseSequence layout edges).nodeOrder.length ∧
    ∀ (i : ℕ) (o : Option String),
      (generatePhraseSequence layout edges).nodeOrder[i]? = some o →
      ∀ d, d = degreeGet (computeDegreeMap edges) o →
      (d ≤ 2 → (generatePhraseSequence layout edges).sequence[i]? = some none) ∧
      (∀ id, o = some id → 3 ≤ d →
        (∀ p, getNoteFromNode layout ((parseNodeId id).1 : ℤ) ((parseNodeId id).2 : ℤ) = some p →
          (generatePhraseSequence layout edges).sequence[i]? =
            some (some ⟨p, min 1 ((d : ℚ) / 6)⟩)) ∧
        (getNoteFromNode layout ((parseNodeId id).1 : ℤ) ((parseNodeId id).2 : ℤ) = none →
          (generatePhraseSequence layout edges).sequence[i]? = some none)) := by
  have hs : (generatePhraseSequence layout edges).sequence =
      ((generatePhraseSequence layout edges).nodeOrder).map
        (phraseStep layout (computeDegreeMap edges)) := rfl
  constructor
  · rw [hs, List.length_map]
  · intro i o ho d hd
    have hget : (generatePhraseSequence layout edges).sequence[i]? =
        some (phraseStep layout (computeDegreeMap edges) o) := by
      rw [hs, List.getElem?_map, ho, Option.map_some']
    constructor
    · intro hle
      rw [hget]
      cases o with
      | none => rfl
      | some id =>
        have hdl : degreeLookup (computeDegreeMap edges) id = d := hd.symm
        simp [phraseStep, hdl, hle]
    · intro id hoid h3
      subst hoid
      have hdl : degreeLookup (computeDegreeMap edges) id = d := hd.symm
      have hnle : ¬(d ≤ 2) := by omega
      constructor
      · intro p hp
        rw [hget]
        simp [phraseStep, hdl, hnle, hp]
      · intro hp
        rw [hget]
        simp [phraseStep, hdl, hnle, hp]

/-- Witness for C8: the degree-3 centre `r0c0` parses to `(0, 0)`,
whose pitch is 60, played at velocity `min 1 (3/6)`. -/
theorem C8_phrase_degree_mapping_witness :
    (generatePhraseSequence demoLayout demoEdges).nodeOrder[1]? = some (some "r0c0") ∧
    (3 : ℕ) = degreeGet (computeDegreeMap demoEdges) (some "r0c0") ∧
    getNoteFromNode demoLayout ((parseNodeId "r0c0").1 : ℤ) ((parseNodeId "r0c0").2 : ℤ) =
      some 60 ∧
    (generatePhraseSequence demoLayout demoEdges).sequence[1]? =
      some (some ⟨60, min 1 ((3 : ℚ) / 6)⟩) :=
  ⟨by decide, by decide, by decide,
    (((C8_phrase_degree_mapping demoLayout demoEdges).2 1 (some "r0c0") (by decide) 3
        (by decide)).2 "r0c0" rfl (by decide)).1 60 (by decide)⟩

/-! ## Claim C9: chord generator on the empty edge set -/

/-- C9: `generateChordSequence` on an empty edge set returns an empty
sequence and an empty nodeOrder, with no fallback chord (and, being a
total function, without raising). -/
theorem C9_chord_empty_edges (layout : List (List ℤ)) :
    generateChordSequence layout [] = ⟨[], []⟩ := rfl

/-! ## Claim C3: longestTrail soundness and maximality -/

theorem chainB_iff (adj : Adj) : ∀ l, chainB adj l = true ↔ l.Chain' (adjRel adj) := by
  intro l
  match l with
  | [] => simp [chainB]
  | [a] => simp [chainB]
  | a :: b :: rest =>
    rw [List.chain'_cons, ← chainB_iff adj (b :: rest)]
    simp [chainB]

instance (adj : Adj) (p : List String) : Decidable (IsSimplePath adj p) :=
  @decidable_of_decidable_of_iff (p.Nodup ∧ chainB adj p = true ∧ ∀ x ∈ p, IsNodeOf adj x) _ _
    (by rw [chainB_iff]; exact Iff.rfl)

theorem mem_listInsert_self (xs : List String) (x : String) : x ∈ listInsert xs x := by
  unfold listInsert
  split
  · assumption
  · simp

theorem mem_listInsert_of_mem (xs : List String) (x y : String) (h : y ∈ xs) :
    y ∈ listInsert xs x := by
  unfold listInsert
  split
  · exact h
  · simp [h]

theorem not_mem_listInsert (xs : List String) (x y : String) (h1 : y ∉ xs) (h2 : y ≠ x) :
    y ∉ listInsert xs x := by
  unfold listInsert
  split
  · exact h1
  · simp [h1, h2]

theorem mem_adjKeys_of_adjRel {adj : Adj} {a b : String} (h : adjRel adj a b) :
    a ∈ adjKeys adj := by
  unfold adjRel neighbors at h
  cases hf : adj.find? (·.1 = a) with
  | none => rw [hf] at h; simp at h
  | some pair =>
    have hmem := List.mem_of_find?_eq_some hf
    have hfst := List.find?_some hf
    simp only [decide_eq_true_eq] at hfst
    exact hfst ▸ List.mem_map_of_mem (·.1) hmem

theorem isNodeOf_of_adjRel {adj : Adj} {a b : String} (h : adjRel adj a b) :
    IsNodeOf adj b := by
  unfold adjRel neighbors at h
  cases hf : adj.find? (·.1 = a) with
  | none => rw [hf] at h; simp at h
  | some pair =>
    rw [hf] at h
    simp only [Option.map_some', Option.getD_some] at h
    exact Or.inr ⟨pair, List.mem_of_find?_eq_some hf, h⟩

/-- A fold whose steps satisfy a membership-aware invariant preserves
it. -/
theorem foldl_preserve_mem {α β : Type} (P : α → Prop) (f : α → β → α) :
    ∀ (l : List β), (∀ acc x, x ∈ l → P acc → P (f acc x)) →
      ∀ init, P init → P (l.foldl f init) := by
  intro l
  induction l with
  | nil => intro _ init h0; exact h0
  | cons x xs ih =>
    intro h init h0
    exact ih (fun acc y hy => h acc y (List.mem_cons_of_mem _ hy))
      (f init x) (h init x (List.mem_cons_self _ _) h0)

/-- Soundness of the DFS accumulator: starting from a simple path and a
simple-path accumulator it only ever stores simple paths. -/
theorem dfsAux_sound (adj : Adj) :
    ∀ (fuel : Nat) (node : String) (visited path longest : List String),
      IsSimplePath adj (path ++ [node]) →
      (∀ x ∈ path ++ [node], x ∈ listInsert visited node) →
      IsSimplePath adj longest →
      IsSimplePath adj (dfsAux adj fuel node visited path longest) := by
  intro fuel
  induction fuel with
  | zero => intro node visited path longest _ _ h; exact h
  | succ fuel ih =>
    intro node visited path longest hpath hcover hlongest
    unfold dfsAux
    dsimp only
    refine foldl_preserve_mem (IsSimplePath adj) _ _ ?_ _ ?_
    · intro acc next hnext hacc
      dsimp only
      split
      · exact hacc
      · next hnotmem =>
        have hrel : adjRel adj node next := hnext
        have hnotpath : next ∉ path ++ [node] := fun hmem => hnotmem (hcover _ hmem)
        refine ih next (listInsert visited node) (path ++ [node]) acc ?_ ?_ hacc
        · obtain ⟨hnd, hch, hnodes⟩ := hpath
          refine ⟨?_, ?_, ?_⟩
          · rw [List.nodup_append]
            exact ⟨hnd, List.nodup_singleton _, by
              intro a ha hb
              simp only [List.mem_singleton] at hb
              exact hnotpath (hb ▸ ha)⟩
          · rw [List.chain'_append]
            refine ⟨hch, List.chain'_singleton _, ?_⟩
            intro a ha b hb
            rw [List.getLast?_concat] at ha
            simp only [Option.mem_def, Option.some_inj] at ha
            simp only [List.head?_cons, Option.mem_def, Option.some_inj] at hb
            rw [← ha, ← hb]
            exact hrel
          · intro x hx
            rcases List.mem_append.1 hx with hx | hx
            · exact hnodes x hx
            · simp only [List.mem_singleton] at hx
              exact hx ▸ isNodeOf_of_adjRel hrel
        · intro x hx
          rcases List.mem_append.1 hx with hx | hx
          · exact mem_listInsert_of_mem _ _ _ (hcover _ hx)
          · simp only [List.mem_singleton] at hx
            exact hx ▸ mem_listInsert_self _ _
    · split
      · exact hpath
      · exact hlongest

/-- If `x` occurs in the list and every step is length-monotone, the
fold's result is at least what processing `x` guarantees. -/
theorem foldl_length_ge_of_mem {β : Type} (f : List String → β → List String) (N : ℕ)
    (x : β) (hmono : ∀ acc y, acc.length ≤ (f acc y).length)
    (hstep : ∀ acc, N ≤ (f acc x).length) :
    ∀ (l : List β), x ∈ l → ∀ init, N ≤ (l.foldl f init).length := by
  intro l
  induction l with
  | nil => intro h; exact absurd h (List.not_mem_nil x)
  | cons y ys ih =>
    intro hx init
    rcases List.mem_cons.1 hx with rfl | hx
    · rw [List.foldl_cons]
      exact le_trans (hstep init) (foldl_length_mono f hmono ys (f init x))
    · rw [List.foldl_cons]
      exact ih hx (f init y)

/-- The exploration lemma: if a chain `q` starts at `node`, avoids
`visited`, repeats no node and fits in the fuel, the DFS finds a stored
path at least `path.length + q.length` long. -/
theorem dfsAux_explores (adj : Adj) :
    ∀ (fuel : Nat) (q : List String) (node : String) (visited path longest : List String),
      q.head? = some node →
      q.Nodup →
      (∀ x ∈ q, x ∉ visited) →
      q.Chain' (adjRel adj) →
      q.length ≤ fuel →
      path.length + q.length ≤ (dfsAux adj fuel node visited path longest).length := by
  intro fuel
  induction fuel with
  | zero =>
    intro q node visited path longest hhead _ _ _ hlen
    interval_cases hq : q.length
    · rw [List.length_eq_zero] at hq
      subst hq
      simp at hhead
  | succ fuel ih =>
    intro q node visited path longest hhead hnodup hdisj hchain hlen
    obtain ⟨qt, rfl⟩ : ∃ qt, q = node :: qt := by
      cases q with
      | nil => simp at hhead
      | cons a qt => simp only [List.head?_cons, Option.some_inj] at hhead; exact ⟨qt, hhead ▸ rfl⟩
    unfold dfsAux
    dsimp only
    cases qt with
    | nil =>
      have hbase : path.length + 1 ≤
          (if longest.length < (path ++ [node]).length then path ++ [node] else longest).length := by
        split
        · next h => simp
        · next h => simp only [List.length_append, List.length_cons, List.length_nil] at h; omega
      simpa using le_trans hbase
        (foldl_length_mono _ (fun acc next => by
          split
          · exact le_rfl
          · exact dfsAux_mono _ _ _ _ _ _) _ _)
    | cons next qtt =>
      have hrel : adjRel adj node next := (List.chain'_cons.1 hchain).1
      have hmemnb : next ∈ neighbors adj node := hrel
      have hnodenotin : node ∉ next :: qtt := (List.nodup_cons.1 hnodup).1
      have hnext_ne : next ≠ node := fun h => hnodenotin (h ▸ List.mem_cons_self _ _)
      have hnextvis : next ∉ listInsert visited node :=
        not_mem_listInsert _ _ _ (hdisj next (List.mem_cons_of_mem _ (List.mem_cons_self _ _)))
          hnext_ne
      refine foldl_length_ge_of_mem _ (path.length + (next :: qtt).length + 1) next
        (fun acc y => by
          split
          · exact le_rfl
          · exact dfsAux_mono _ _ _ _ _ _)
        (fun acc => by
          rw [if_neg hnextvis]
          have := ih (next :: qtt) next (listInsert visited node) (path ++ [node]) acc rfl
            (List.nodup_cons.1 hnodup).2
            (fun x hx => not_mem_listInsert _ _ _
              (hdisj x (List.mem_cons_of_mem _ hx))
              (fun hxeq => hnodenotin (hxeq ▸ hx)))
            (List.chain'_cons.1 hchain).2
            (by simp only [List.length_cons] at hlen ⊢; omega)
          simp only [List.length_append, List.length_cons, List.length_nil] at this ⊢
          omega)
        _ hmemnb _
        |>.trans_eq' ?_
      simp only [List.length_cons]
      omega

theorem chain'_dropLast_mem_keys (adj : Adj) :
    ∀ (p : List String), p.Chain' (adjRel adj) → ∀ x ∈ p.dropLast, x ∈ adjKeys adj := by
  intro p
  induction p with
  | nil => intro _ x hx; simp at hx
  | cons a rest ih =>
    intro hch x hx
    cases rest with
    | nil => simp at hx
    | cons b rest' =>
      rw [List.dropLast_cons₂] at hx
      rcases List.mem_cons.1 hx with rfl | hx
      · exact mem_adjKeys_of_adjRel (List.chain'_cons.1 hch).1
      · exact ih (List.chain'_cons.1 hch).2 x hx

/-- Fuel bound: a simple path fits within `adj.length + 1`. -/
theorem simplePath_length_le (adj : Adj) (p : List String) (h : IsSimplePath adj p) :
    p.length ≤ adj.length + 1 := by
  obtain ⟨hnd, hch, _⟩ := h
  have hsub : p.dropLast ⊆ adjKeys adj := fun x hx => chain'_dropLast_mem_keys adj p hch x hx
  have hnd' : p.dropLast.Nodup := hnd.sublist (List.dropLast_sublist p)
  have hle : p.dropLast.length ≤ (adjKeys adj).length :=
    (hnd'.subperm hsub).length_le
  have : (adjKeys adj).length = adj.length := List.length_map _ _
  rw [List.length_dropLast] at hle
  omega

/-- C3 main content: `longestTrail` returns a simple path, and no simple
path of the graph is strictly longer. -/
theorem longestTrail_correct (adj : Adj) :
    IsSimplePath adj (longestTrail adj) ∧
    ∀ p, IsSimplePath adj p → p.length ≤ (longestTrail adj).length := by
  constructor
  · unfold longestTrail
    refine foldl_preserve_mem (IsSimplePath adj) _ _ ?_ _ ?_
    · intro acc start hstart hacc
      refine dfsAux_sound adj _ _ _ _ _ ?_ ?_ hacc
      · refine ⟨List.nodup_singleton _, List.chain'_singleton _, ?_⟩
        intro x hx
        simp only [List.nil_append, List.mem_singleton] at hx
        exact hx ▸ Or.inl hstart
      · intro x hx
        simp only [List.nil_append, List.mem_singleton] at hx
        exact hx ▸ mem_listInsert_self _ _
    · exact ⟨List.nodup_nil, List.chain'_nil, by intro x hx; simp at hx⟩
  · intro p hp
    cases hps : p with
    | nil => simp
    | cons x rest =>
      subst hps
      have hfuel : (x :: rest).length ≤ adj.length + 1 := simplePath_length_le adj _ hp
      obtain ⟨hnd, hch, hnodes⟩ := hp
      have hkey : x ∈ adjKeys adj ∨ rest = [] := by
        cases rest with
        | nil => exact Or.inr rfl
        | cons b rest' => exact Or.inl (mem_adjKeys_of_adjRel (List.chain'_cons.1 hch).1)
      rcases hkey with hkey | hrest
      · unfold longestTrail
        refine foldl_length_ge_of_mem _ _ x
          (fun acc y => dfsAux_mono _ _ _ _ _ _)
          (fun acc => by
            have := dfsAux_explores adj (adj.length + 1) (x :: rest) x [] [] acc rfl hnd
              (by intro y _ hy; simp at hy) hch hfuel
            simpa using this)
          _ hkey _
      · subst hrest
        have hnode : IsNodeOf adj x := hnodes x (List.mem_cons_self _ _)
        have hadjne : adj ≠ [] := by
          intro hnil
          subst hnil
          rcases hnode with h | h
          · simp [adjKeys] at h
          · obtain ⟨pp, hpp, _⟩ := h
            simp at hpp
        simpa using longestTrail_length_pos adj hadjne

set_option maxRecDepth 4000 in
/-- C3: `longestTrail` returns a simple path of maximal length among
the simple paths of the graph; on the 4-cycle A-B-C-D-A it returns a
path of exactly 4 distinct nodes, never 5. -/
theorem C3_longestTrail_simple_and_maximal (adj : Adj) :
    (IsSimplePath adj (longestTrail adj) ∧
      ∀ p, IsSimplePath adj p → p.length ≤ (longestTrail adj).length) ∧
    longestTrail (buildAdjacency fourCycleEdges) = ["A", "B", "C", "D"] ∧
    (longestTrail (buildAdjacency fourCycleEdges)).length = 4 ∧
    (longestTrail (buildAdjacency fourCycleEdges)).Nodup := by
  refine ⟨longestTrail_correct adj, by decide, by decide, by decide⟩

/-- Witness for C3: the two-node path A-B is a simple path of the
4-cycle and is indeed no longer than the returned trail. -/
theorem C3_longestTrail_witness :
    IsSimplePath (buildAdjacency fourCycleEdges) ["A", "B"] ∧
    (["A", "B"] : List String).length ≤
      (longestTrail (buildAdjacency fourCycleEdges)).length :=
  ⟨by decide,
    (C3_longestTrail_simple_and_maximal (buildAdjacency fourCycleEdges)).1.2 ["A", "B"]
      (by decide)⟩

/-! ## Claim C10: node-id round trip -/

theorem digitChar_isDigit (m : ℕ) (h : m < 10) : (Nat.digitChar m).isDigit = true := by
  interval_cases m <;> decide

theorem digitChar_toNat (m : ℕ) (h : m < 10) : (Nat.digitChar m).toNat - 48 = m := by
  interval_cases m <;> decide

theorem digitsVal_concat (xs : List Char) (c : Char) :
    digitsVal (xs ++ [c]) = digitsVal xs * 10 + (c.toNat - 48) := by
  unfold digitsVal
  rw [List.foldl_append]
  rfl

/-- The fuelled decimal printer is correct: its characters are digits,
it is non-empty for positive `n`, and reading it back yields `n`. -/
theorem natDigitsAux_spec :
    ∀ (n fuel : ℕ), n ≤ fuel →
      (∀ c ∈ natDigitsAux fuel n, c.isDigit = true) ∧
      (n ≠ 0 → natDigitsAux fuel n ≠ []) ∧
      digitsVal (natDigitsAux fuel n).reverse = n := by
  intro n
  induction n using Nat.strong_induction_on with
  | _ n ih =>
    intro fuel hle
    match fuel with
    | 0 =>
      have hn : n = 0 := Nat.le_zero.1 hle
      subst hn
      exact ⟨by intro c hc; simp [natDigitsAux] at hc, fun h => absurd rfl h, rfl⟩
    | fuel + 1 =>
      by_cases hn : n = 0
      · subst hn
        exact ⟨by intro c hc; simp [natDigitsAux] at hc, fun h => absurd rfl h, rfl⟩
      · have hstep : natDigitsAux (fuel + 1) n =
            Nat.digitChar (n % 10) :: natDigitsAux fuel (n / 10) := by
          rw [natDigitsAux, if_neg hn]
        have hdivlt : n / 10 < n := Nat.div_lt_self (Nat.pos_of_ne_zero hn) (by norm_num)
        have hdivle : n / 10 ≤ fuel := by omega
        obtain ⟨iha, _, ihc⟩ := ih (n / 10) hdivlt fuel hdivle
        refine ⟨?_, ?_, ?_⟩
        · intro c hc
          rw [hstep] at hc
          rcases List.mem_cons.1 hc with rfl | hc
          · exact digitChar_isDigit _ (Nat.mod_lt _ (by norm_num))
          · exact iha c hc
        · intro _
          rw [hstep]
          simp
        · rw [hstep, List.reverse_cons, digitsVal_concat, ihc,
            digitChar_toNat _ (Nat.mod_lt _ (by norm_num))]
          omega

theorem natStr_spec (n : ℕ) :
    (natStr n).data ≠ [] ∧ (∀ c ∈ (natStr n).data, c.isDigit = true) ∧
      digitsVal (natStr n).data = n := by
  by_cases hn : n = 0
  · subst hn
    refine ⟨by decide, by decide, by decide⟩
  · have hmk : (natStr n).data = (natDigitsAux n n).reverse := by
      unfold natStr
      rw [if_neg hn]
    obtain ⟨ha, hb, hc⟩ := natDigitsAux_spec n n le_rfl
    refine ⟨?_, ?_, ?_⟩
    · rw [hmk]
      simpa using hb hn
    · intro c hcmem
      rw [hmk, List.mem_reverse] at hcmem
      exact ha c hcmem
    · rw [hmk, hc]

theorem span_append_stop (p : Char → Bool) (x : Char) (hx : p x = false) :
    ∀ (l1 l2 : List Char), (∀ c ∈ l1, p c = true) →
      (l1 ++ x :: l2).span p = (l1, x :: l2) := by
  intro l1
  induction l1 with
  | nil =>
    intro l2 _
    rw [List.nil_append, List.span_eq_take_drop, List.takeWhile_cons_of_neg,
      List.dropWhile_cons_of_neg] <;> simp [hx]
  | cons c t ihl =>
    intro l2 hall
    have hc : p c = true := hall c (List.mem_cons_self _ _)
    have := ihl l2 (fun d hd => hall d (List.mem_cons_of_mem _ hd))
    rw [List.span_eq_take_drop] at this ⊢
    simp only [Prod.mk.injEq] at this
    rw [List.cons_append, List.takeWhile_cons_of_pos (by simp [hc]),
      List.dropWhile_cons_of_pos (by simp [hc])]
    exact Prod.ext (by simp [this.1]) (by simp [this.2])

theorem span_all_true (p : Char → Bool) :
    ∀ (l : List Char), (∀ c ∈ l, p c = true) → l.span p = (l, []) := by
  intro l
  induction l with
  | nil => intro _; rfl
  | cons c t ihl =>
    intro hall
    have hc : p c = true := hall c (List.mem_cons_self _ _)
    have := ihl (fun d hd => hall d (List.mem_cons_of_mem _ hd))
    rw [List.span_eq_take_drop] at this ⊢
    simp only [Prod.mk.injEq] at this
    rw [List.takeWhile_cons_of_pos (by simp [hc]), List.dropWhile_cons_of_pos (by simp [hc])]
    exact Prod.ext (by simp [this.1]) (by simp [this.2])

/-- The anchored regex attempt on an exactly well-formed tail. -/
theorem tryMatchAt_wellFormed (ds1 ds2 : List Char)
    (h1 : ds1 ≠ []) (h1d : ∀ c ∈ ds1, c.isDigit = true)
    (h2 : ds2 ≠ []) (h2d : ∀ c ∈ ds2, c.isDigit = true) :
    tryMatchAt ('r' :: (ds1 ++ 'c' :: ds2)) = some (digitsVal ds1, digitsVal ds2) := by
  obtain ⟨a, t, rfl⟩ := List.exists_cons_of_ne_nil h1
  obtain ⟨b, t2, rfl⟩ := List.exists_cons_of_ne_nil h2
  have hspan1 : ((a :: t) ++ 'c' :: (b :: t2)).span Char.isDigit = (a :: t, 'c' :: (b :: t2)) :=
    span_append_stop _ 'c' (by decide) _ _ h1d
  have hspan2 : (b :: t2).span Char.isDigit = (b :: t2, []) := span_all_true _ _ h2d
  simp only [tryMatchAt, hspan1, hspan2, if_pos rfl]
  rfl

/-- The anchored attempt succeeds on any tail beginning with the
pattern (the captured column digits may extend into `post`). -/
theorem tryMatchAt_isSome (ds1 ds2 post : List Char)
    (h1 : ds1 ≠ []) (h1d : ∀ c ∈ ds1, c.isDigit = true)
    (h2 : ds2 ≠ []) (h2d : ∀ c ∈ ds2, c.isDigit = true) :
    (tryMatchAt ('r' :: (ds1 ++ 'c' :: (ds2 ++ post)))).isSome = true := by
  obtain ⟨a, t, rfl⟩ := List.exists_cons_of_ne_nil h1
  obtain ⟨b, t2, rfl⟩ := List.exists_cons_of_ne_nil h2
  have hspan1 : ((a :: t) ++ 'c' :: ((b :: t2) ++ post)).span Char.isDigit =
      (a :: t, 'c' :: ((b :: t2) ++ post)) :=
    span_append_stop _ 'c' (by decide) _ _ h1d
  have hb : Char.isDigit b = true := h2d b (List.mem_cons_self _ _)
  have hspan2 : ((b :: t2) ++ post).span Char.isDigit =
      (b :: (((t2 ++ post).span Char.isDigit).1), ((t2 ++ post).span Char.isDigit).2) := by
    rw [List.span_eq_take_drop, List.cons_append,
      List.takeWhile_cons_of_pos (by simp [hb]), List.dropWhile_cons_of_pos (by simp [hb]),
      List.span_eq_take_drop]
  simp only [tryMatchAt, hspan1, hspan2, if_pos rfl]
  rfl

/-- If some suffix matches, the left-to-right scan succeeds. -/
theorem findMatch_isSome_of_suffix :
    ∀ (cs : List Char), (∃ suf, suf <:+ cs ∧ (tryMatchAt suf).isSome = true) →
      (findMatch cs).isSome = true := by
  intro cs
  induction cs with
  | nil =>
    rintro ⟨suf, hsuf, hsome⟩
    rw [List.suffix_nil.1 hsuf] at hsome
    simp [tryMatchAt] at hsome
  | cons c cs ih =>
    rintro ⟨suf, hsuf, hsome⟩
    unfold findMatch
    cases htry : tryMatchAt (c :: cs) with
    | some r => rfl
    | none =>
      rcases List.suffix_cons_iff.1 hsuf with rfl | hsuf'
      · rw [htry] at hsome
        simp at hsome
      · exact ih ⟨suf, hsuf', hsome⟩

/-- C10: node ids round-trip — `parseNodeId ("r" ++ row ++ "c" ++ col)`
recovers `(row, col)` for all naturals; the `(0, 0)` fallback branch is
taken only by ids with no `r<digits>c<digits>` substring (any id
containing the pattern makes the scan succeed). -/
theorem C10_parseNodeId_roundtrip :
    (∀ row col : ℕ, parseNodeId ("r" ++ natStr row ++ "c" ++ natStr col) = (row, col)) ∧
    (∀ id : String, ContainsPattern id → (findMatch id.data).isSome = true) ∧
    (∀ id : String, findMatch id.data = none → parseNodeId id = (0, 0)) := by
  refine ⟨?_, ?_, ?_⟩
  · intro row col
    obtain ⟨hr1, hr2, hr3⟩ := natStr_spec row
    obtain ⟨hc1, hc2, hc3⟩ := natStr_spec col
    have hdata : ("r" ++ natStr row ++ "c" ++ natStr col).data =
        'r' :: ((natStr row).data ++ 'c' :: (natStr col).data) := by
      simp [String.data_append]
    unfold parseNodeId
    rw [hdata]
    unfold findMatch
    rw [tryMatchAt_wellFormed _ _ hr1 hr2 hc1 hc2, hr3, hc3]
    rfl
  · intro id hpat
    obtain ⟨pre, ds1, ds2, post, hdata, h1, h2, h1d, h2d⟩ := hpat
    refine findMatch_isSome_of_suffix _ ⟨'r' :: (ds1 ++ 'c' :: (ds2 ++ post)), ?_, ?_⟩
    · exact ⟨pre, hdata.symm⟩
    · exact tryMatchAt_isSome ds1 ds2 post h1 h1d h2 h2d
  · intro id hnone
    unfold parseNodeId
    rw [hnone]
    rfl

/-- Witness for C10: `"xr12c3y"` contains the pattern, so the fallback
is not taken there. -/
theorem C10_parseNodeId_roundtrip_witness :
    ContainsPattern "xr12c3y" ∧ (findMatch "xr12c3y".data).isSome = true ∧
    parseNodeId ("r" ++ natStr 12 ++ "c" ++ natStr 3) = (12, 3) :=
  ⟨⟨['x'], ['1', '2'], ['3'], ['y'], rfl, by decide, by decide, by decide, by decide⟩,
    C10_parseNodeId_roundtrip.2.1 "xr12c3y"
      ⟨['x'], ['1', '2'], ['3'], ['y'], rfl, by decide, by decide, by decide, by decide⟩,
    C10_parseNodeId_roundtrip.1 12 3⟩

/-! ## Claim C4: gesture decomposition -/

namespace Grid

/-- The walk loop, when it succeeds, produces exactly `k` unit segments
chaining from the start node, every one a base edge. -/
theorem walkAux_spec :
    ∀ (k : ℕ) (current : GNode) (dx dyb : ℚ) (segs : List GEdge) (last : GNode),
      walkAux k current dx dyb = some (segs, last) →
      segs.length = k ∧ ChainedFrom current segs last ∧ ∀ s ∈ segs, baseKeyMem s.key = true := by
  intro k
  induction k with
  | zero =>
    intro current dx dyb segs last h
    simp only [walkAux, Option.some_inj, Prod.mk.injEq] at h
    obtain ⟨rfl, rfl⟩ := h
    exact ⟨rfl, ChainedFrom.nil current, by intro s hs; simp at hs⟩
  | succ k ih =>
    intro current dx dyb segs last h
    unfold walkAux at h
    cases hnode : nodeAtCoord (current.x + dx) (current.yb + dyb) with
    | none => rw [hnode] at h; exact absurd h (by simp)
    | some nextNode =>
      rw [hnode] at h
      dsimp only at h
      by_cases hbase : baseKeyMem (createEdgeKey current nextNode) = true
      · rw [if_pos hbase] at h
        cases hwalk : walkAux k nextNode dx dyb with
        | none => rw [hwalk] at h; exact absurd h (by simp)
        | some p =>
          obtain ⟨segs', last'⟩ := p
          rw [hwalk] at h
          simp only [Option.some_inj, Prod.mk.injEq] at h
          obtain ⟨rfl, rfl⟩ := h
          obtain ⟨hlen, hchain, hkeys⟩ := ih nextNode dx dyb segs' last' hwalk
          refine ⟨by simp [hlen], ChainedFrom.cons rfl hchain, ?_⟩
          intro s hs
          rcases List.mem_cons.1 hs with rfl | hs
          · exact hbase
          · exact hkeys s hs
      · rw [if_neg hbase] at h
        exact absurd h (by simp)

/-- The success shape of `getEdgeSegments`: a decomposition that is
returned is exactly the computed number of base unit segments chaining
from `from` to `to`. -/
theorem getEdgeSegments_some_spec (a b : GNode) :
    ∀ segs, getEdgeSegments a b = some segs →
      ∃ k dir last, gestureDir a b = some k ∧ dirLookup k = some dir ∧
        stepsValid a b dir = true ∧ segs.length = gestureSteps a b dir ∧ 0 < segs.length ∧
        ChainedFrom a segs last ∧ last.id = b.id ∧ ∀ s ∈ segs, baseKeyMem s.key = true := by
  intro segs hsome
  unfold getEdgeSegments at hsome
  cases hk : gestureDir a b with
  | none => rw [hk] at hsome; exact absurd hsome (by simp)
  | some dkey =>
    rw [hk] at hsome
    dsimp only at hsome
    cases hlook : dirLookup dkey with
    | none => rw [hlook] at hsome; exact absurd hsome (by simp)
    | some dir =>
      rw [hlook] at hsome
      dsimp only at hsome
      by_cases hval : stepsValid a b dir = true
      · rw [if_pos hval] at hsome
        cases hwalk : walkAux (gestureSteps a b dir) a dir.dx dir.dyb with
        | none => rw [hwalk] at hsome; exact absurd hsome (by simp)
        | some p =>
          obtain ⟨segs', last⟩ := p
          rw [hwalk] at hsome
          dsimp only at hsome
          by_cases hid : last.id = b.id
          · rw [if_pos hid] at hsome
            obtain rfl : segs' = segs := by simpa using hsome
            obtain ⟨hlen, hchain, hkeys⟩ := walkAux_spec _ _ _ _ _ _ hwalk
            have hsteps0 : gestureSteps a b dir ≠ 0 := by
              unfold stepsValid at hval
              simp only [Bool.and_eq_true, decide_eq_true_eq] at hval
              exact hval.1.1
            exact ⟨dkey, dir, last, rfl, hlook, hval, hlen, by omega, hchain, hid, hkeys⟩
          · rw [if_neg hid] at hsome
            exact absurd hsome (by simp)
      · rw [if_neg hval] at hsome
        exact absurd hsome (by simp)

/-- C4: `getEdgeSegments` returns `none` on a zero-length gesture, on a
direction missing from the catalogue, on a distance that is not an
integer multiple of the step length within 1e-6, on a walk failure (a
missing intermediate node or a non-base unit segment), and when the
walk does not end at `to`; when it succeeds it returns exactly the
computed number of unit segments, chaining from `from` to `to`, each a
member of the base valid-edge set. -/
theorem C4_getEdgeSegments_spec (a b : GNode) :
    (a.x = b.x ∧ a.yb = b.yb → getEdgeSegments a b = none) ∧
    (gestureDir a b = none → getEdgeSegments a b = none) ∧
    (∀ k, gestureDir a b = some k → dirLookup k = none → getEdgeSegments a b = none) ∧
    (∀ k dir, gestureDir a b = some k → dirLookup k = some dir →
      stepsValid a b dir = false → getEdgeSegments a b = none) ∧
    (∀ k dir, gestureDir a b = some k → dirLookup k = some dir → stepsValid a b dir = true →
      walkAux (gestureSteps a b dir) a dir.dx dir.dyb = none → getEdgeSegments a b = none) ∧
    (∀ k dir segs last, gestureDir a b = some k → dirLookup k = some dir →
      stepsValid a b dir = true →
      walkAux (gestureSteps a b dir) a dir.dx dir.dyb = some (segs, last) →
      last.id ≠ b.id → getEdgeSegments a b = none) ∧
    (∀ segs, getEdgeSegments a b = some segs →
      ∃ k dir last, gestureDir a b = some k ∧ dirLookup k = some dir ∧
        stepsValid a b dir = true ∧ segs.length = gestureSteps a b dir ∧ 0 < segs.length ∧
        ChainedFrom a segs last ∧ last.id = b.id ∧ ∀ s ∈ segs, baseKeyMem s.key = true) := by
  refine ⟨?_, ?_, ?_, ?_, ?_, ?_, fun segs h => getEdgeSegments_some_spec a b segs h⟩
  · rintro ⟨hx, hy⟩
    have hdir : gestureDir a b = none := by
      unfold gestureDir directionKey
      rw [← hx, ← hy]
      simp
    unfold getEdgeSegments
    rw [hdir]
  · intro hdir
    unfold getEdgeSegments
    rw [hdir]
  · intro k hk hlook
    unfold getEdgeSegments
    rw [hk]
    dsimp only
    rw [hlook]
  · intro k dir hk hlook hval
    unfold getEdgeSegments
    rw [hk]
    dsimp only
    rw [hlook]
    dsimp only
    rw [if_neg (by rw [hval]; exact Bool.false_ne_true)]
  · intro k dir hk hlook hval hwalk
    unfold getEdgeSegments
    rw [hk]
    dsimp only
    rw [hlook]
    dsimp only
    rw [if_pos hval, hwalk]
  · intro k dir segs last hk hlook hval hwalk hne
    unfold getEdgeSegments
    rw [hk]
    dsimp only
    rw [hlook]
    dsimp only
    rw [if_pos hval, hwalk]
    dsimp only
    rw [if_neg hne]
end Grid

set_option maxRecDepth 1000000 in
unseal Rat.mul Rat.add Rat.inv Rat.sub in
/-- Witness for C4: the drag `r0c0 → r0c3` (three grid steps along the
horizontal base direction) decomposes into exactly 3 unit edges, all in
the base valid-edge set. -/
theorem C4_getEdgeSegments_spec_witness :
    Grid.getEdgeSegments Grid.node00 Grid.node03 = some Grid.segs03 ∧
    Grid.segs03.length = 3 ∧ 0 < Grid.segs03.length ∧
    Grid.segs03.all (fun s => Grid.baseKeyMem s.key) = true := by
  have h : Grid.getEdgeSegments Grid.node00 Grid.node03 = some Grid.segs03 := by decide
  obtain ⟨k, dir, last, _, _, _, _, hpos, _, _, hkeys⟩ :=
    (Grid.C4_getEdgeSegments_spec Grid.node00 Grid.node03).2.2.2.2.2.2 Grid.segs03 h
  refine ⟨h, by decide, hpos, ?_⟩
  rw [List.all_eq_true]
  intro s hs
  exact hkeys s hs

/-! ## Claim C6: the user edge-set invariant -/

namespace Grid

/-- A successful `handleNodeClick` is a successful decomposition
appended through the dedup loop. -/
theorem handleNodeClick_some {sel : Option String} {node : GNode} {es es' : List GEdge}
    (h : handleNodeClick sel node es = some es') :
    ∃ id fromNode segs, sel = some id ∧ nodeMapFind id = some fromNode ∧
      getEdgeSegments fromNode node = some segs ∧ es' = addSegments es segs := by
  cases sel with
  | none => exact absurd h (by simp [handleNodeClick])
  | some id =>
    unfold handleNodeClick at h
    dsimp only at h
    by_cases hid : id = node.id
    · rw [if_pos hid] at h
      exact absurd h (by simp)
    · rw [if_neg hid] at h
      cases hfind : nodeMapFind id with
      | none => rw [hfind] at h; exact absurd h (by simp)
      | some fromNode =>
        rw [hfind] at h
        dsimp only at h
        by_cases hcan : canCreateEdge fromNode node = true
        · rw [if_pos hcan] at h
          cases hseg : getEdgeSegments fromNode node with
          | none => rw [hseg] at h; exact absurd h (by simp)
          | some segs =>
            rw [hseg] at h
            simp only [Option.some_inj] at h
            exact ⟨id, fromNode, segs, rfl, hfind, hseg, h.symm⟩
        · rw [if_neg hcan] at h
          exact absurd h (by simp)

/-- The dedup-appending loop keeps every key in the base set and keeps
the key list duplicate-free. -/
theorem addSegments_invariant :
    ∀ (segs es : List GEdge),
      (∀ e ∈ es, baseKeyMem e.key = true) → (es.map (·.key)).Nodup →
      (∀ s ∈ segs, baseKeyMem s.key = true) →
      (∀ e ∈ addSegments es segs, baseKeyMem e.key = true) ∧
        ((addSegments es segs).map (·.key)).Nodup := by
  intro segs
  induction segs with
  | nil => intro es h1 h2 _; exact ⟨h1, h2⟩
  | cons seg segs ih =>
    intro es h1 h2 hkeys
    have hstep : addSegments es (seg :: segs) =
        addSegments (if es.any (·.key = seg.key) then es else es ++ [seg]) segs := rfl
    rw [hstep]
    by_cases hmem : es.any (·.key = seg.key) = true
    · rw [if_pos hmem]
      exact ih es h1 h2 (fun s hs => hkeys s (List.mem_cons_of_mem _ hs))
    · rw [if_neg hmem]
      have hnotin : seg.key ∉ es.map (·.key) := by
        intro hin
        obtain ⟨e, he, hkey⟩ := List.mem_map.1 hin
        exact hmem (List.any_eq_true.2 ⟨e, he, by simp [hkey]⟩)
      refine ih (es ++ [seg]) ?_ ?_ (fun s hs => hkeys s (List.mem_cons_of_mem _ hs))
      · intro e he
        rcases List.mem_append.1 he with he | he
        · exact h1 e he
        · simp only [List.mem_singleton] at he
          exact he ▸ hkeys seg (List.mem_cons_self _ _)
      · rw [List.map_append]
        rw [List.nodup_append]
        exact ⟨h2, List.nodup_singleton _, by
          intro x hx hy
          simp only [List.map_cons, List.map_nil, List.mem_singleton] at hy
          exact hnotin (hy ▸ hx)⟩

/-- C6: every edge set reachable through the component's edit
operations has only base-valid canonical keys with no duplicates, and a
failed decomposition never reaches `onEdgesChange` (the handler returns
without touching the edge set). -/
theorem C6_reachable_edges_valid :
    (∀ es, ReachableEdges es →
      (∀ e ∈ es, baseKeyMem e.key = true) ∧ (es.map (·.key)).Nodup) ∧
    (∀ (node : GNode) (es : List GEdge), handleNodeClick none node es = none) ∧
    (∀ (id : String) (n node : GNode) (es : List GEdge),
      nodeMapFind id = some n → getEdgeSegments n node = none →
      handleNodeClick (some id) node es = none) := by
  refine ⟨?_, ?_, ?_⟩
  · intro es h
    induction h with
    | init => exact ⟨by intro e he; simp at he, List.nodup_nil⟩
    | clear _ => exact ⟨by intro e he; simp at he, List.nodup_nil⟩
    | remove k _ ih =>
      obtain ⟨h1, h2⟩ := ih
      refine ⟨?_, ?_⟩
      · intro e he
        exact h1 e (List.mem_of_mem_filter he)
      · exact h2.sublist (List.Sublist.map _ (List.filter_sublist _))
    | click sel node _ hclick ih =>
      obtain ⟨h1, h2⟩ := ih
      obtain ⟨id, fromNode, segs, rfl, hfind, hseg, rfl⟩ := handleNodeClick_some hclick
      obtain ⟨_, _, _, _, _, _, _, _, _, _, hkeys⟩ :=
        getEdgeSegments_some_spec fromNode node segs hseg
      exact addSegments_invariant segs _ h1 h2 hkeys
  · intro node es
    rfl
  · intro id n node es hfind hseg
    unfold handleNodeClick
    dsimp only
    by_cases hid : id = node.id
    · rw [if_pos hid]
    · rw [if_neg hid, hfind]
      dsimp only
      rw [if_neg (by unfold canCreateEdge; rw [hseg]; exact Bool.false_ne_true)]

end Grid

set_option maxRecDepth 1000000 in
unseal Rat.mul Rat.add Rat.inv Rat.sub in
/-- Witness for C6: the edge set produced by clicking `r0c0` then
`r0c3` from the empty set is reachable, fully base-valid and
duplicate-free. -/
theorem C6_reachable_edges_valid_witness :
    Grid.handleNodeClick (some "r0c0") Grid.node03 [] = some Grid.segs03 ∧
    (Grid.segs03.map (·.key)).Nodup :=
  have hclick : Grid.handleNodeClick (some "r0c0") Grid.node03 [] = some Grid.segs03 := by
    decide
  ⟨hclick,
    ((Grid.C6_reachable_edges_valid.1 Grid.segs03
      (Grid.ReachableEdges.click _ _ Grid.ReachableEdges.init hclick)).2)⟩

/-! ## Claim C5: the chord generator -/

theorem clusterEdges_ne_nil (edges : List GridEdge) (h : edges ≠ []) :
    clusterEdges edges ≠ [] := by
  obtain ⟨e, rest, rfl⟩ := List.exists_cons_of_ne_nil h
  show List.foldl addToLines (addToLines [] e) rest ≠ []
  have step : ∀ (lines : List (List GridEdge)) e', lines ≠ [] → addToLines lines e' ≠ [] := by
    intro lines e' hne
    unfold addToLines
    cases hidx : lines.findIdx? _ with
    | none => simp
    | some i =>
      dsimp only
      intro hnil
      have hmod : (List.modify (· ++ [e']) i lines).length = lines.length :=
        List.length_modify _ _ _
      rw [hnil] at hmod
      simp only [List.length_nil] at hmod
      exact hne (List.length_eq_zero.1 hmod.symm)
  have base : addToLines [] e ≠ [] := by
    unfold addToLines
    simp
  have main : ∀ (l : List GridEdge) (init : List (List GridEdge)), init ≠ [] →
      l.foldl addToLines init ≠ [] := by
    intro l
    induction l with
    | nil => intro init h0; exact h0
    | cons x xs ih => intro init h0; exact ih _ (step init x h0)
  exact main rest _ base

set_option maxRecDepth 100000 in
set_option linter.unusedVariables false in
unseal List.merge List.mergeSort Rat.mul Rat.add Rat.inv Rat.sub in
/-- C5: on a non-empty edge set of rational-length edges, the chord
generator sorts the collinear clusters descending by total member
length (a stable sort: the ranked list is a permutation of the cluster
list, pairwise descending), keeps the top 4, and fills slot `i` with
the pitch set of the cluster of rank `i mod k`, `k = min(#clusters,
4)`; on exactly two perpendicular clusters of total lengths 100 and 50
the progression is `[long, short, long, short]`. -/
theorem C5_chord_rank_and_cycle (layout : List (List ℤ)) (edges : List GridEdge)
    (hne : edges ≠ []) (hrat : ∀ e ∈ edges, RatLen e) :
    (rankedClusters edges).Perm (lineInfoOf edges) ∧
    List.Pairwise (fun a b => b.2 ≤ a.2) (rankedClusters edges) ∧
    (generateChordSequence layout edges).sequence.length = 4 ∧
    0 < min 4 (clusterEdges edges).length ∧
    (∀ i : ℕ, i < 4 →
      (generateChordSequence layout edges).sequence[i]? =
        some ⟨(chordSlots layout edges).getD (i % min 4 (clusterEdges edges).length) []⟩) ∧
    clusterEdges chordDemoEdges =
      [[⟨"h", chordNodeA, chordNodeB⟩], [⟨"v", chordNodeA, chordNodeC⟩]] ∧
    totalLength [⟨"h", chordNodeA, chordNodeB⟩] = 100 ∧
    totalLength [⟨"v", chordNodeA, chordNodeC⟩] = 50 ∧
    generateChordSequence chordDemoLayout chordDemoEdges =
      ⟨[⟨[60, 62]⟩, ⟨[60, 64]⟩, ⟨[60, 62]⟩, ⟨[60, 64]⟩],
        ["60", "62", "60", "64", "60", "62", "60", "64"]⟩ := by
  have hcne : clusterEdges edges ≠ [] := clusterEdges_ne_nil edges hne
  have hseq : (generateChordSequence layout edges).sequence =
      (List.range 4).map (fun i =>
        ChordEvent.mk (((chordSlots layout edges).get?
          (i % (chordSlots layout edges).length)).getD [])) := by
    unfold generateChordSequence
    rw [if_neg hne]
    dsimp only
    rw [List.map_map]
    rfl
  have hlen : (chordSlots layout edges).length = min 4 (clusterEdges edges).length := by
    unfold chordSlots rankedClusters lineInfoOf
    rw [List.length_map, List.length_take, List.length_mergeSort, List.length_map]
  refine ⟨List.mergeSort_perm _ _, ?_, ?_, ?_, ?_, by decide, by decide, by decide, by decide⟩
  · have hsorted := @List.sorted_mergeSort _ lineLe
      (fun a b c hab hbc => by
        simp only [lineLe, decide_eq_true_eq] at hab hbc ⊢
        exact le_trans hbc hab)
      (fun a b => by
        simp only [lineLe]
        rcases le_total b.2 a.2 with h | h <;> simp [h])
      (lineInfoOf edges)
    exact hsorted.imp (by intro a b hab; simpa [lineLe] using hab)
  · rw [hseq, List.length_map, List.length_range]
  · have : 0 < (clusterEdges edges).length := List.length_pos.2 hcne
    omega
  · intro i hi
    rw [hseq, List.getElem?_map, List.getElem?_range hi]
    dsimp only [Option.map_some']
    rw [hlen]
    congr 1

set_option maxRecDepth 100000 in
unseal List.merge List.mergeSort Rat.mul Rat.add Rat.inv Rat.sub in
/-- Witness for C5 at the perpendicular 100/50 example. -/
theorem C5_chord_rank_and_cycle_witness :
    chordDemoEdges ≠ [] ∧
    (generateChordSequence chordDemoLayout chordDemoEdges).sequence.length = 4 :=
  ⟨by decide,
    (C5_chord_rank_and_cycle chordDemoLayout chordDemoEdges (by decide)
      (by
        intro e he
        simp only [chordDemoEdges, List.mem_cons, List.mem_singleton] at he
        rcases he with rfl | he | hf
        · exact ⟨100, by norm_num [chordNodeA, chordNodeB]⟩
        · subst he
          exact ⟨50, by norm_num [chordNodeA, chordNodeC]⟩
        · exact absurd hf (by simp))).2.2.1⟩

end Pinboard
